import Mathlib

/-!
Verification of the ingestion-normalization-lookup engine of the SDR finder
application (`src/App.jsx`).  The JavaScript core is shallowly embedded:

* a spreadsheet cell value (`CellValue`) is a string or a number;
* `String.prototype.trim` / `String.prototype.toLowerCase` /
  `String.prototype.includes` are embedded as `jsTrim` / `jsToLower` /
  `jsIncludes` (ASCII lowercasing, the standard whitespace characters);
* the header-cleaning branch of `processedData` (App.jsx lines 97-105) is
  `normalizeHeader` / `projectStep`, the row pipeline is `projectRow` /
  `processRows`;
* the search handler `handleSearchChange` (lines 144-187) is `searchStep` /
  `runQuery`, with the insertion-ordered JavaScript `Map` embedded as an
  association list;
* the upload completion handler (lines 75-128) is `handleFileLoaded` over an
  explicit `AppState`.
-/

/-- Scalar cell value of a parsed spreadsheet row: the external parser
(`sheet_to_json`) produces strings and numbers; blank cells are simply absent
from the row. -/
inductive CellValue where
  | str (s : String)
  | num (n : Int)
deriving DecidableEq, Repr

/-- Raw row delivered by the external parser: header/value pairs in the
object's key-iteration order. -/
abbrev RawRow : Type := List (String × CellValue)

/-- Whitespace test for the characters removed by `String.prototype.trim`
(modelling the common ASCII whitespace characters). -/
def wsChar (c : Char) : Bool :=
  c = ' ' || c = '\t' || c = '\n' || c = '\r' || c = '\x0b' || c = '\x0c'

/-- Helper: right trim at the character-list level. -/
def rtrimL (l : List Char) : List Char :=
  (l.reverse.dropWhile wsChar).reverse

/-- ASCII uppercase/lowercase letter pairs, used to embed
`String.prototype.toLowerCase`. -/
def lowerPairs : List (Char × Char) :=
  [('A', 'a'), ('B', 'b'), ('C', 'c'), ('D', 'd'), ('E', 'e'), ('F', 'f'),
   ('G', 'g'), ('H', 'h'), ('I', 'i'), ('J', 'j'), ('K', 'k'), ('L', 'l'),
   ('M', 'm'), ('N', 'n'), ('O', 'o'), ('P', 'p'), ('Q', 'q'), ('R', 'r'),
   ('S', 's'), ('T', 't'), ('U', 'u'), ('V', 'v'), ('W', 'w'), ('X', 'x'),
   ('Y', 'y'), ('Z', 'z')]

/-- Lowercase a single character (ASCII model of JavaScript lowercasing). -/
def lowerChar (c : Char) : Char :=
  (((lowerPairs.find? fun p => decide (p.1 = c)).map Prod.snd).getD c)

/-- Embedding of `String.prototype.trim`: drop whitespace from both ends. -/
def jsTrim (s : String) : String :=
  ⟨((s.data.dropWhile wsChar).reverse.dropWhile wsChar).reverse⟩

/-- Embedding of `String.prototype.toLowerCase` (ASCII model). -/
def jsToLower (s : String) : String :=
  ⟨s.data.map lowerChar⟩

/-- Embedding of `String.prototype.includes`: substring containment. -/
def jsIncludes (s pat : String) : Bool :=
  decide (pat.data <:+: s.data)

/-- Embedding of `String(v)` on a cell value. -/
def jsToString : CellValue → String
  | .str s => s
  | .num n => toString n

/-- Key cleaning of App.jsx line 98:
`String(key).trim().toLowerCase()`. -/
def cleanKey (k : String) : String :=
  jsToLower (jsTrim k)

/-- Canonical tag assigned to a raw header by the if/else chain of
App.jsx lines 99-104. -/
inductive HeaderTag where
  | territoryKey
  | ownerName
  | passthrough (key : String)
deriving DecidableEq, Repr

/-- Header Normalizer (App.jsx lines 98-104): clean the key, then branch on
substring containment, "sales level 6" taking priority over "sdr"; otherwise
the cleaned key itself is kept as a passthrough field key. -/
def normalizeHeader (k : String) : HeaderTag :=
  let ck := cleanKey k
  if jsIncludes ck "sales level 6" then .territoryKey
  else if jsIncludes ck "sdr" then .ownerName
  else .passthrough ck

/-- Field name under which `projectRow` stores a value carrying the given tag
(the literal keys of App.jsx lines 100, 102, 104). -/
def canonicalFieldName : HeaderTag → String
  | .territoryKey => "salesLevel6"
  | .ownerName => "sdrName"
  | .passthrough key => key

/-- Canonical record built by the projection loop: the two designated fields
plus the passthrough fields, each `none` until first assigned. -/
structure CanonRow where
  salesLevel6 : Option CellValue
  sdrName : Option CellValue
  passthrough : List (String × CellValue)
deriving DecidableEq, Repr

/-- Canonical record with no field assigned yet (`const newRow = {}`). -/
def emptyCanon : CanonRow :=
  { salesLevel6 := none, sdrName := none, passthrough := [] }

/-- JavaScript object property assignment on the passthrough fields:
overwrite in place when the key exists, append otherwise. -/
def setField (ps : List (String × CellValue)) (k : String) (v : CellValue) :
    List (String × CellValue) :=
  if ps.any fun p => decide (p.1 = k) then
    ps.map fun p => if p.1 = k then (k, v) else p
  else ps ++ [(k, v)]

/-- Property read on the passthrough fields. -/
def lookupField (ps : List (String × CellValue)) (k : String) :
    Option CellValue :=
  (ps.find? fun p => decide (p.1 = k)).map Prod.snd

/-- Body of the `for (const key in row)` loop of App.jsx lines 97-105. -/
def projectStep (acc : CanonRow) (kv : String × CellValue) : CanonRow :=
  match normalizeHeader kv.1 with
  | .territoryKey => { acc with salesLevel6 := some kv.2 }
  | .ownerName => { acc with sdrName := some kv.2 }
  | .passthrough ck => { acc with passthrough := setField acc.passthrough ck kv.2 }

/-- Record Projector for a single raw row (the `json.map(row => ...)`
callback of App.jsx lines 95-107). -/
def projectRow (row : RawRow) : CanonRow :=
  row.foldl projectStep emptyCanon

/-- JavaScript truthiness of a cell value: empty string and zero are falsy. -/
def truthyV : CellValue → Bool
  | .str s => decide (s ≠ "")
  | .num n => decide (n ≠ 0)

/-- JavaScript truthiness of a possibly-missing field (`undefined` is falsy). -/
def truthy : Option CellValue → Bool
  | none => false
  | some v => truthyV v

/-- Record Projector over the whole parsed sheet (App.jsx lines 95-108):
project every row, then `.filter(row => row.salesLevel6 && row.sdrName)`. -/
def processRows (rows : List RawRow) : List CanonRow :=
  (rows.map projectRow).filter fun r => truthy r.salesLevel6 && truthy r.sdrName

/-- Result object pushed into the search results
(App.jsx lines 159-162): the territory value in original casing plus the
owner field of the same canonical record. -/
structure QueryResult where
  salesLevel6 : CellValue
  sdrName : Option CellValue
deriving DecidableEq, Repr

/-- Dedup identity of a canonical record
(App.jsx line 155): `String(row.salesLevel6).toLowerCase()`. -/
def keyStr (r : CanonRow) : String :=
  jsToLower (jsToString (r.salesLevel6.getD (.str "")))

/-- Match condition of App.jsx line 154:
`row.salesLevel6 && String(row.salesLevel6).toLowerCase().includes(term.toLowerCase())`. -/
def rowMatches (term : String) (r : CanonRow) : Bool :=
  truthy r.salesLevel6 && jsIncludes (keyStr r) (jsToLower term)

/-- Result object stored in the map for a matching record. -/
def mkResult (r : CanonRow) : QueryResult :=
  { salesLevel6 := r.salesLevel6.getD (.str ""), sdrName := r.sdrName }

/-- Body of the `excelData.forEach` loop of App.jsx lines 153-165, with the
insertion-ordered JavaScript `Map` embedded as an association list: a record
is added only if it matches and its dedup key is not yet present. -/
def searchStep (term : String) (acc : List (String × QueryResult))
    (r : CanonRow) : List (String × QueryResult) :=
  if rowMatches term r then
    if keyStr r ∈ acc.map Prod.fst then acc
    else acc ++ [(keyStr r, mkResult r)]
  else acc

/-- Query engine of `handleSearchChange` (App.jsx lines 144-187): with a
non-empty term and non-empty data, fold the dedup map over the records and
emit its values in insertion order; otherwise the results are empty. -/
def runQuery (term : String) (data : List CanonRow) : List QueryResult :=
  if 0 < term.length ∧ 0 < data.length then
    (data.foldl (searchStep term) []).map Prod.snd
  else []

/-- Dedup identity of an emitted result (equals the map key it was stored
under). -/
def resultKey (q : QueryResult) : String :=
  jsToLower (jsToString q.salesLevel6)

/-- First-wins deduplication stated the way the spec describes it: keep each
matching record whose lowercased key has not appeared before, in input
order. -/
def dedupFirstBy : List CanonRow → List QueryResult
  | [] => []
  | r :: rs => mkResult r :: dedupFirstBy (rs.filter fun x => decide (keyStr x ≠ keyStr r))
termination_by l => l.length
decreasing_by
  simp only [List.length_cons]
  exact Nat.lt_succ_of_le (List.length_filter_le _ _)

/-- Reformulation of the search fold with the already-seen dedup keys made
explicit, used to relate `runQuery` to `dedupFirstBy`. -/
def searchGo (term : String) : List CanonRow → List String → List (String × QueryResult)
  | [], _ => []
  | r :: rs, seen =>
    if rowMatches term r then
      if keyStr r ∈ seen then searchGo term rs seen
      else (keyStr r, mkResult r) :: searchGo term rs (seen ++ [keyStr r])
    else searchGo term rs seen

/-- Outcome reported by the upload completion handler (the three message
branches of App.jsx lines 110-127). -/
inductive IngestOutcome where
  | loaded (records : List CanonRow) (count : Nat)
  | noValidRows
  | parseError
deriving DecidableEq, Repr

/-- Result of the external parsing step inside the `try` block: either the
raw rows of the first sheet, or a thrown error. -/
inductive ParseResult where
  | ok (rows : List RawRow)
  | err

/-- State touched by the upload completion handler. -/
structure AppState where
  excelData : List CanonRow
  searchTerm : String
  filteredResults : List QueryResult
deriving DecidableEq, Repr

/-- Upload completion handler (App.jsx lines 75-128): on parser success run
the Record Projector and branch on whether any record survived; on a thrown
parse error clear the record set.  Only the successful branch touches
`filteredResults`. -/
def handleFileLoaded (st : AppState) (pr : ParseResult) :
    AppState × IngestOutcome :=
  match pr with
  | .err => ({ st with excelData := [] }, .parseError)
  | .ok rows =>
    let pd := processRows rows
    if 0 < pd.length then
      ({ st with excelData := pd, filteredResults := [] },
       .loaded pd pd.length)
    else
      ({ st with excelData := [] }, .noValidRows)

/-- Search handler state update (App.jsx lines 144-187). -/
def handleSearchChange (st : AppState) (term : String) : AppState :=
  { st with searchTerm := term, filteredResults := runQuery term st.excelData }

/-- Raw rows of Scenario A of the spec. -/
def scenarioARows : List RawRow :=
  [[("Sales Level 6", .str "West-1"), ("SDR Name", .str "Alice")],
   [("Sales Level 6", .str "west-1"), ("SDR Name", .str "Bob")],
   [("Sales Level 6", .str "East-9"), ("SDR", .str "Carol")]]

/-- Canonical record set of Scenario A. -/
def scenarioAData : List CanonRow := processRows scenarioARows

/-- Raw row of Scenario B of the spec (no header matches either substring). -/
def scenarioBRow : RawRow :=
  [("Region", .str "West-1"), ("Owner", .str "Alice")]

/-- Raw row whose territory cell is a number, exercising the storage of
non-string cell values. -/
def numericRow : RawRow := [("Sales Level 6", .num 5), ("SDR", .str "Alice")]

/-! ### Character-level facts about the lowercasing and whitespace model -/

theorem lowerChar_cases (c : Char) :
    lowerChar c = c ∨ (c, lowerChar c) ∈ lowerPairs := by
  unfold lowerChar
  cases h : lowerPairs.find? fun p => decide (p.1 = c) with
  | none => exact Or.inl rfl
  | some p =>
    have hmem := List.mem_of_find?_eq_some h
    have hpred := List.find?_some h
    have hc : p.1 = c := by simpa using hpred
    refine Or.inr ?_
    show (c, p.2) ∈ lowerPairs
    rw [← hc, Prod.mk.eta]
    exact hmem

theorem lowerPairs_snd_fixed : ∀ p ∈ lowerPairs, lowerChar p.2 = p.2 := by decide

theorem lowerPairs_no_ws :
    ∀ p ∈ lowerPairs, wsChar p.1 = false ∧ wsChar p.2 = false := by decide

theorem lowerChar_idem (c : Char) : lowerChar (lowerChar c) = lowerChar c := by
  rcases lowerChar_cases c with h | h
  · rw [h]; exact h
  · exact lowerPairs_snd_fixed _ h

theorem wsChar_lowerChar (c : Char) : wsChar (lowerChar c) = wsChar c := by
  rcases lowerChar_cases c with h | h
  · rw [h]
  · rcases lowerPairs_no_ws _ h with ⟨h1, h2⟩
    rw [show wsChar (lowerChar c) = false from h2, show wsChar c = false from h1]

theorem dropWhile_dropWhile (p : Char → Bool) (l : List Char) :
    (l.dropWhile p).dropWhile p = l.dropWhile p := by
  induction l with
  | nil => rfl
  | cons a t ih =>
    by_cases h : p a
    · rw [List.dropWhile_cons_of_pos h]; exact ih
    · rw [List.dropWhile_cons_of_neg h, List.dropWhile_cons_of_neg h]

theorem length_dropWhile_le' (p : Char → Bool) (l : List Char) :
    (l.dropWhile p).length ≤ l.length := by
  induction l with
  | nil => simp
  | cons a t ih =>
    by_cases h : p a
    · rw [List.dropWhile_cons_of_pos h]; simp; omega
    · rw [List.dropWhile_cons_of_neg h]

theorem rtrimL_idem (l : List Char) : rtrimL (rtrimL l) = rtrimL l := by
  unfold rtrimL
  rw [List.reverse_reverse, dropWhile_dropWhile]

theorem dropWhile_rtrimL (l : List Char) (h : l.dropWhile wsChar = l) :
    (rtrimL l).dropWhile wsChar = rtrimL l := by
  obtain ⟨pre, hpre⟩ := List.dropWhile_suffix (l := l.reverse) wsChar
  cases hD : (l.reverse.dropWhile wsChar).reverse with
  | nil => unfold rtrimL; rw [hD]; rfl
  | cons a t =>
    have hl : l = a :: (t ++ pre.reverse) := by
      have h1 : l = (pre ++ l.reverse.dropWhile wsChar).reverse := by
        rw [hpre, List.reverse_reverse]
      rw [h1, List.reverse_append, hD, List.cons_append]
    have ha : ¬ wsChar a = true := by
      intro hw
      have h2 := h
      rw [hl, List.dropWhile_cons_of_pos hw] at h2
      have hlen := congrArg List.length h2
      have hle := length_dropWhile_le' wsChar (t ++ pre.reverse)
      simp only [List.length_cons] at hlen
      omega
    unfold rtrimL
    rw [hD, List.dropWhile_cons_of_neg ha]

theorem jsTrim_idem (s : String) : jsTrim (jsTrim s) = jsTrim s := by
  show (⟨rtrimL ((rtrimL (s.data.dropWhile wsChar)).dropWhile wsChar)⟩ : String)
      = ⟨rtrimL (s.data.dropWhile wsChar)⟩
  rw [dropWhile_rtrimL _ (dropWhile_dropWhile _ _), rtrimL_idem]

theorem map_lowerChar_dropWhile (l : List Char) :
    (l.map lowerChar).dropWhile wsChar = (l.dropWhile wsChar).map lowerChar := by
  rw [List.dropWhile_map]
  have hcomp : (wsChar ∘ lowerChar) = wsChar := funext wsChar_lowerChar
  rw [hcomp]

theorem rtrimL_map_lowerChar (l : List Char) :
    rtrimL (l.map lowerChar) = (rtrimL l).map lowerChar := by
  unfold rtrimL
  rw [← List.map_reverse, map_lowerChar_dropWhile, List.map_reverse]

theorem jsTrim_jsToLower (s : String) :
    jsTrim (jsToLower s) = jsToLower (jsTrim s) := by
  show (⟨rtrimL ((s.data.map lowerChar).dropWhile wsChar)⟩ : String)
      = ⟨(rtrimL (s.data.dropWhile wsChar)).map lowerChar⟩
  rw [map_lowerChar_dropWhile, rtrimL_map_lowerChar]

theorem jsToLower_idem (s : String) : jsToLower (jsToLower s) = jsToLower s := by
  show (⟨(s.data.map lowerChar).map lowerChar⟩ : String) = ⟨s.data.map lowerChar⟩
  rw [List.map_map]
  have hcomp : (lowerChar ∘ lowerChar) = lowerChar := funext lowerChar_idem
  rw [hcomp]

theorem cleanKey_idem (k : String) : cleanKey (cleanKey k) = cleanKey k := by
  unfold cleanKey
  rw [jsTrim_jsToLower, jsTrim_idem, jsToLower_idem]

theorem normalizeHeader_cleanKey (k : String) :
    normalizeHeader (cleanKey k) = normalizeHeader k := by
  simp only [normalizeHeader, cleanKey_idem]

/-! ### Query engine: the fold with an explicit dedup map equals first-wins
deduplication of the matching records -/

theorem dedupFirstBy_cons (r : CanonRow) (rs : List CanonRow) :
    dedupFirstBy (r :: rs)
      = mkResult r :: dedupFirstBy (rs.filter fun x => decide (keyStr x ≠ keyStr r)) := by
  simp only [dedupFirstBy]

theorem foldl_searchStep (term : String) (l : List CanonRow) :
    ∀ acc : List (String × QueryResult),
      l.foldl (searchStep term) acc = acc ++ searchGo term l (acc.map Prod.fst) := by
  induction l with
  | nil => intro acc; simp [searchGo]
  | cons r rs ih =>
    intro acc
    rw [List.foldl_cons]
    by_cases hm : rowMatches term r
    · by_cases hk : keyStr r ∈ acc.map Prod.fst
      · rw [show searchStep term acc r = acc from by simp [searchStep, hm, hk]]
        rw [ih acc]
        congr 1
        simp [searchGo, hm, hk]
      · rw [show searchStep term acc r = acc ++ [(keyStr r, mkResult r)] from by
          simp [searchStep, hm, hk]]
        rw [ih]
        simp [searchGo, hm, hk, List.map_append]
    · rw [show searchStep term acc r = acc from by simp [searchStep, hm]]
      rw [ih acc]
      congr 1
      simp [searchGo, hm]

theorem searchGo_eq_dedup (term : String) :
    ∀ (l : List CanonRow) (seen : List String),
      (searchGo term l seen).map Prod.snd =
        dedupFirstBy (l.filter fun r => rowMatches term r && decide (keyStr r ∉ seen)) := by
  intro l
  induction l with
  | nil => intro seen; simp [searchGo, dedupFirstBy]
  | cons r rs ih =>
    intro seen
    by_cases hm : rowMatches term r
    · by_cases hk : keyStr r ∈ seen
      · have hstep : searchGo term (r :: rs) seen = searchGo term rs seen := by
          simp [searchGo, hm, hk]
        rw [hstep, ih]
        congr 1
        rw [List.filter_cons]
        simp [hm, hk]
      · have hstep : searchGo term (r :: rs) seen
            = (keyStr r, mkResult r) :: searchGo term rs (seen ++ [keyStr r]) := by
          simp [searchGo, hm, hk]
        rw [hstep, List.map_cons, ih]
        have hfc : (r :: rs).filter (fun x => rowMatches term x && decide (keyStr x ∉ seen))
            = r :: rs.filter fun x => rowMatches term x && decide (keyStr x ∉ seen) := by
          rw [List.filter_cons]
          simp [hm, hk]
        rw [hfc, dedupFirstBy_cons]
        congr 2
        rw [List.filter_filter]
        congr 1
        funext x
        by_cases h1 : rowMatches term x
        · by_cases h2 : keyStr x ∈ seen
          · simp [h1, h2]
          · by_cases h3 : keyStr x = keyStr r
            · simp [h1, h2, h3]
            · simp [h1, h2, h3]
        · simp [h1]
    · have hstep : searchGo term (r :: rs) seen = searchGo term rs seen := by
        simp [searchGo, hm]
      rw [hstep, ih]
      congr 1
      rw [List.filter_cons]
      simp [hm]

theorem runQuery_eq_dedup (term : String) (data : List CanonRow)
    (hterm : term ≠ "") :
    runQuery term data = dedupFirstBy (data.filter (rowMatches term)) := by
  have hlen : 0 < term.length := by
    cases term with
    | mk cs =>
      cases cs with
      | nil => exact absurd rfl hterm
      | cons a t => simp [String.length]
  cases data with
  | nil => simp [runQuery, dedupFirstBy]
  | cons r rs =>
    have hcond : 0 < term.length ∧ 0 < (r :: rs).length := ⟨hlen, by simp⟩
    rw [runQuery, if_pos hcond, foldl_searchStep, List.nil_append, List.map_nil,
      searchGo_eq_dedup]
    congr 1
    apply List.filter_congr
    intro x _
    simp

theorem dedupFirstBy_mem : ∀ l : List CanonRow, ∀ q ∈ dedupFirstBy l,
    ∃ r, r ∈ l ∧ q = mkResult r := by
  intro l
  induction l using dedupFirstBy.induct with
  | case1 => simp [dedupFirstBy]
  | case2 r rs ih =>
    intro q hq
    rw [dedupFirstBy_cons] at hq
    rcases List.mem_cons.mp hq with h | h
    · exact ⟨r, List.mem_cons_self r rs, h⟩
    · obtain ⟨x, hx, hqx⟩ := ih q h
      exact ⟨x, List.mem_cons_of_mem r (List.mem_of_mem_filter hx), hqx⟩

theorem resultKey_mkResult (r : CanonRow) : resultKey (mkResult r) = keyStr r := rfl

theorem dedupFirstBy_keys_nodup : ∀ l : List CanonRow,
    ((dedupFirstBy l).map resultKey).Nodup := by
  intro l
  induction l using dedupFirstBy.induct with
  | case1 => simp [dedupFirstBy]
  | case2 r rs ih =>
    rw [dedupFirstBy_cons, List.map_cons]
    refine List.nodup_cons.mpr ⟨?_, ih⟩
    intro hmem
    rcases List.mem_map.mp hmem with ⟨q, hq, hkey⟩
    obtain ⟨x, hx, rfl⟩ := dedupFirstBy_mem _ q hq
    have hxf := List.of_mem_filter hx
    have hne : keyStr x ≠ keyStr r := of_decide_eq_true hxf
    exact hne (by simpa [resultKey_mkResult] using hkey)

theorem dedupFirstBy_length : ∀ l : List CanonRow,
    (dedupFirstBy l).length ≤ l.length := by
  intro l
  induction l using dedupFirstBy.induct with
  | case1 => simp [dedupFirstBy]
  | case2 r rs ih =>
    rw [dedupFirstBy_cons]
    simp only [List.length_cons]
    have hfl := List.length_filter_le (fun x => decide (keyStr x ≠ keyStr r)) rs
    omega

theorem dedupFirstBy_eq_nil_iff (l : List CanonRow) :
    dedupFirstBy l = [] ↔ l = [] := by
  cases l with
  | nil => simp [dedupFirstBy]
  | cons r rs => rw [dedupFirstBy_cons]; simp

/-! ### Projection lemmas -/

theorem processRows_mem (rows : List RawRow) (r : CanonRow)
    (h : r ∈ processRows rows) :
    truthy r.salesLevel6 = true ∧ truthy r.sdrName = true := by
  have hpred := List.of_mem_filter h
  simpa [Bool.and_eq_true] using hpred

theorem foldl_projectStep_sl6 : ∀ (l : List (String × CellValue)) (acc : CanonRow),
    (l.foldl projectStep acc).salesLevel6 = acc.salesLevel6 ∨
    ∃ kv, kv ∈ l ∧ normalizeHeader kv.1 = .territoryKey ∧
      (l.foldl projectStep acc).salesLevel6 = some kv.2 := by
  intro l
  induction l with
  | nil => intro acc; exact Or.inl rfl
  | cons kv rest ih =>
    intro acc
    rw [List.foldl_cons]
    rcases ih (projectStep acc kv) with h | ⟨kv', hmem, htag, hval⟩
    · cases htag : normalizeHeader kv.1 with
      | territoryKey =>
        refine Or.inr ⟨kv, List.mem_cons_self _ _, htag, ?_⟩
        rw [h]
        simp [projectStep, htag]
      | ownerName =>
        refine Or.inl ?_
        rw [h]
        simp [projectStep, htag]
      | passthrough ck =>
        refine Or.inl ?_
        rw [h]
        simp [projectStep, htag]
    · exact Or.inr ⟨kv', List.mem_cons_of_mem _ hmem, htag, hval⟩

theorem foldl_projectStep_sdr : ∀ (l : List (String × CellValue)) (acc : CanonRow),
    (l.foldl projectStep acc).sdrName = acc.sdrName ∨
    ∃ kv, kv ∈ l ∧ normalizeHeader kv.1 = .ownerName ∧
      (l.foldl projectStep acc).sdrName = some kv.2 := by
  intro l
  induction l with
  | nil => intro acc; exact Or.inl rfl
  | cons kv rest ih =>
    intro acc
    rw [List.foldl_cons]
    rcases ih (projectStep acc kv) with h | ⟨kv', hmem, htag, hval⟩
    · cases htag : normalizeHeader kv.1 with
      | ownerName =>
        refine Or.inr ⟨kv, List.mem_cons_self _ _, htag, ?_⟩
        rw [h]
        simp [projectStep, htag]
      | territoryKey =>
        refine Or.inl ?_
        rw [h]
        simp [projectStep, htag]
      | passthrough ck =>
        refine Or.inl ?_
        rw [h]
        simp [projectStep, htag]
    · exact Or.inr ⟨kv', List.mem_cons_of_mem _ hmem, htag, hval⟩

/-! ### Passthrough-field assignment lemmas -/

theorem find?_overwrite : ∀ (ps : List (String × CellValue)) (k : String) (v : CellValue),
    ps.any (fun q => decide (q.1 = k)) = true →
    (ps.map fun p => if p.1 = k then (k, v) else p).find? (fun q => decide (q.1 = k))
      = some (k, v) := by
  intro ps k v h
  induction ps with
  | nil => simp at h
  | cons p rest ih =>
    by_cases hp : p.1 = k
    · simp only [List.map_cons, if_pos hp]
      rw [List.find?_cons_of_pos]
      simp
    · simp only [List.map_cons, if_neg hp]
      rw [List.find?_cons_of_neg]
      · apply ih
        simpa [List.any_cons, hp] using h
      · simp [hp]

theorem find?_overwrite_other : ∀ (ps : List (String × CellValue)) (k' k : String)
    (v : CellValue), k' ≠ k →
    (ps.map fun p => if p.1 = k' then (k', v) else p).find? (fun q => decide (q.1 = k))
      = ps.find? (fun q => decide (q.1 = k)) := by
  intro ps k' k v hne
  induction ps with
  | nil => simp
  | cons p rest ih =>
    by_cases hp : p.1 = k'
    · simp only [List.map_cons, if_pos hp]
      rw [List.find?_cons_of_neg _ (by simp [hne]),
        List.find?_cons_of_neg _ (by simp [hp, hne])]
      exact ih
    · simp only [List.map_cons, if_neg hp]
      by_cases hpk : p.1 = k
      · rw [List.find?_cons_of_pos _ (by simp [hpk]),
          List.find?_cons_of_pos _ (by simp [hpk])]
      · rw [List.find?_cons_of_neg _ (by simp [hpk]),
          List.find?_cons_of_neg _ (by simp [hpk])]
        exact ih

theorem find?_append_none : ∀ (l1 l2 : List (String × CellValue))
    (p : (String × CellValue) → Bool),
    l1.find? p = none → (l1 ++ l2).find? p = l2.find? p := by
  intro l1
  induction l1 with
  | nil => intro l2 p _; simp
  | cons a t ih =>
    intro l2 p h
    by_cases hpa : p a = true
    · rw [List.find?_cons_of_pos _ hpa] at h
      exact absurd h (by simp)
    · rw [List.find?_cons_of_neg _ hpa] at h
      rw [List.cons_append, List.find?_cons_of_neg _ hpa]
      exact ih l2 p h

theorem find?_append_some : ∀ (l1 l2 : List (String × CellValue))
    (p : (String × CellValue) → Bool) (x : String × CellValue),
    l1.find? p = some x → (l1 ++ l2).find? p = some x := by
  intro l1
  induction l1 with
  | nil => intro l2 p x h; simp at h
  | cons a t ih =>
    intro l2 p x h
    by_cases hpa : p a = true
    · rw [List.find?_cons_of_pos _ hpa] at h
      rw [List.cons_append, List.find?_cons_of_pos _ hpa]
      exact h
    · rw [List.find?_cons_of_neg _ hpa] at h
      rw [List.cons_append, List.find?_cons_of_neg _ hpa]
      exact ih l2 p x h

theorem lookupField_setField_self (ps : List (String × CellValue)) (k : String)
    (v : CellValue) :
    lookupField (setField ps k v) k = some v := by
  unfold setField
  by_cases h : ps.any (fun p => decide (p.1 = k)) = true
  · rw [if_pos h]
    unfold lookupField
    rw [find?_overwrite ps k v h]
    rfl
  · rw [if_neg h]
    unfold lookupField
    have hnone : ps.find? (fun p => decide (p.1 = k)) = none := by
      rw [List.find?_eq_none]
      intro x hx hpred
      exact h (List.any_eq_true.mpr ⟨x, hx, hpred⟩)
    rw [find?_append_none _ _ _ hnone]
    simp [List.find?]

theorem lookupField_setField_other (ps : List (String × CellValue)) (k' k : String)
    (v : CellValue) (hne : k' ≠ k) :
    lookupField (setField ps k' v) k = lookupField ps k := by
  unfold setField
  by_cases h : ps.any (fun p => decide (p.1 = k')) = true
  · rw [if_pos h]
    unfold lookupField
    rw [find?_overwrite_other ps k' k v hne]
  · rw [if_neg h]
    unfold lookupField
    cases hfind : ps.find? (fun p => decide (p.1 = k)) with
    | some x => rw [find?_append_some _ _ _ _ hfind]
    | none =>
      rw [find?_append_none _ _ _ hfind]
      simp [List.find?, hne]

/-! ### Field preservation along the projection fold -/

theorem foldl_projectStep_keep_sl6 : ∀ (l : List (String × CellValue)) (acc : CanonRow),
    (∀ kv ∈ l, normalizeHeader kv.1 ≠ .territoryKey) →
    (l.foldl projectStep acc).salesLevel6 = acc.salesLevel6 := by
  intro l
  induction l with
  | nil => intro acc _; rfl
  | cons kv rest ih =>
    intro acc h
    rw [List.foldl_cons, ih _ fun x hx => h x (List.mem_cons_of_mem _ hx)]
    have hk := h kv (List.mem_cons_self _ _)
    cases htag : normalizeHeader kv.1 with
    | territoryKey => exact absurd htag hk
    | ownerName => simp [projectStep, htag]
    | passthrough ck => simp [projectStep, htag]

theorem foldl_projectStep_keep_sdr : ∀ (l : List (String × CellValue)) (acc : CanonRow),
    (∀ kv ∈ l, normalizeHeader kv.1 ≠ .ownerName) →
    (l.foldl projectStep acc).sdrName = acc.sdrName := by
  intro l
  induction l with
  | nil => intro acc _; rfl
  | cons kv rest ih =>
    intro acc h
    rw [List.foldl_cons, ih _ fun x hx => h x (List.mem_cons_of_mem _ hx)]
    have hk := h kv (List.mem_cons_self _ _)
    cases htag : normalizeHeader kv.1 with
    | ownerName => exact absurd htag hk
    | territoryKey => simp [projectStep, htag]
    | passthrough ck => simp [projectStep, htag]

theorem foldl_projectStep_keep_pass : ∀ (l : List (String × CellValue)) (acc : CanonRow)
    (ck : String),
    (∀ kv ∈ l, normalizeHeader kv.1 ≠ .passthrough ck) →
    lookupField (l.foldl projectStep acc).passthrough ck
      = lookupField acc.passthrough ck := by
  intro l
  induction l with
  | nil => intro acc ck _; rfl
  | cons kv rest ih =>
    intro acc ck h
    rw [List.foldl_cons, ih _ _ fun x hx => h x (List.mem_cons_of_mem _ hx)]
    have hk := h kv (List.mem_cons_self _ _)
    cases htag : normalizeHeader kv.1 with
    | territoryKey => simp [projectStep, htag]
    | ownerName => simp [projectStep, htag]
    | passthrough ck' =>
      have hne : ck' ≠ ck := fun he => hk (by rw [htag, he])
      simp only [projectStep, htag]
      exact lookupField_setField_other _ _ _ _ hne

/-! ### Claim theorems -/

/-- C1: for every canonical record set and non-empty query, the query engine
returns exactly the first-wins deduplication of the records whose lowercased
key contains the lowercased query, in first-insertion order — so at most one
result per distinct case-insensitive territory key (the emitted dedup keys
are pairwise distinct) and each result's owner comes from the first matching
record; in particular Scenario A projects to 3 records and the query "west"
returns exactly (West-1, Alice). -/
theorem query_firstWins_dedup (term : String) (data : List CanonRow)
    (hterm : term ≠ "") :
    runQuery term data = dedupFirstBy (data.filter (rowMatches term)) ∧
    ((runQuery term data).map resultKey).Nodup ∧
    scenarioAData.length = 3 ∧
    runQuery "west" scenarioAData =
      [{ salesLevel6 := .str "West-1", sdrName := some (.str "Alice") }] := by
  refine ⟨runQuery_eq_dedup term data hterm, ?_, by decide, by decide⟩
  rw [runQuery_eq_dedup term data hterm]
  exact dedupFirstBy_keys_nodup _

/-- C1 witness at the Scenario A record set and the query "west". -/
theorem query_firstWins_dedup_witness :
    runQuery "west" scenarioAData
      = dedupFirstBy (scenarioAData.filter (rowMatches "west")) :=
  (query_firstWins_dedup "west" scenarioAData (by decide)).1

/-- C2: every canonical record produced by the Record Projector has truthy
(non-empty) territory and owner fields; there are at most as many output
records as input rows, and input order is preserved (the output is a sublist
of the projected input rows). -/
theorem projector_invariant (rows : List RawRow) :
    (∀ r ∈ processRows rows,
      truthy r.salesLevel6 = true ∧ truthy r.sdrName = true) ∧
    (processRows rows).length ≤ rows.length ∧
    List.Sublist (processRows rows) (rows.map projectRow) := by
  refine ⟨fun r hr => processRows_mem rows r hr, ?_, List.filter_sublist _⟩
  have h1 := List.length_filter_le
    (fun r => truthy r.salesLevel6 && truthy r.sdrName) (rows.map projectRow)
  have h2 : (rows.map projectRow).length = rows.length := List.length_map _ _
  unfold processRows
  omega

/-- C2 witness at the Scenario A rows. -/
theorem projector_invariant_witness :
    (∀ r ∈ processRows scenarioARows,
      truthy r.salesLevel6 = true ∧ truthy r.sdrName = true) ∧
    (processRows scenarioARows).length ≤ scenarioARows.length ∧
    List.Sublist (processRows scenarioARows) (scenarioARows.map projectRow) :=
  projector_invariant scenarioARows

/-- C3: the Header Normalizer first trims and lowercases the raw header; the
result is tagged territoryKey iff it contains "sales level 6", ownerName iff
it does not contain "sales level 6" but contains "sdr", and otherwise the
header is kept as a passthrough field keyed by the cleaned form; a header
containing both substrings, such as "Sales Level 6 SDR", is tagged
territoryKey. -/
theorem headerNormalizer_characterization (k : String) :
    cleanKey k = jsToLower (jsTrim k) ∧
    (normalizeHeader k = .territoryKey ↔
      jsIncludes (cleanKey k) "sales level 6" = true) ∧
    (normalizeHeader k = .ownerName ↔
      (jsIncludes (cleanKey k) "sales level 6" = false ∧
       jsIncludes (cleanKey k) "sdr" = true)) ∧
    (∀ ck, normalizeHeader k = .passthrough ck ↔
      (jsIncludes (cleanKey k) "sales level 6" = false ∧
       jsIncludes (cleanKey k) "sdr" = false ∧ ck = cleanKey k)) ∧
    normalizeHeader "Sales Level 6 SDR" = .territoryKey := by
  refine ⟨rfl, ?_, ?_, ?_, by decide⟩
  all_goals
    cases h1 : jsIncludes (cleanKey k) "sales level 6" <;>
      cases h2 : jsIncludes (cleanKey k) "sdr" <;>
        simp [normalizeHeader, h1, h2, eq_comm]

/-- C4 counterexample: the projector stores the raw territory cell value; for
a numeric cell the stored value is the number 5, not a string, refuting the
claim that both fields are coerced to string for storage. -/
theorem stored_value_not_string_counterexample :
    ∃ r, r ∈ processRows [numericRow] ∧
      (∀ s, r.salesLevel6 ≠ some (CellValue.str s)) ∧
      r.salesLevel6 = some (CellValue.num 5) := by
  refine ⟨{ salesLevel6 := some (.num 5), sdrName := some (.str "Alice"),
            passthrough := [] }, by decide, ?_, rfl⟩
  intro s h
  simp at h

/-- C4 (amended): every kept record is the projection of some input row, and
each stored designated field is exactly a cell value occurring in the raw row
(original value, type and casing preserved — no string coercion at storage;
`String(...)` is applied only at query time). -/
theorem projector_preserves_raw_values (rows : List RawRow) (row : RawRow) :
    (∀ r ∈ processRows rows, ∃ raw, raw ∈ rows ∧ r = projectRow raw) ∧
    ((projectRow row).salesLevel6 = none ∨
      ∃ kv, kv ∈ row ∧ normalizeHeader kv.1 = .territoryKey ∧
        (projectRow row).salesLevel6 = some kv.2) ∧
    ((projectRow row).sdrName = none ∨
      ∃ kv, kv ∈ row ∧ normalizeHeader kv.1 = .ownerName ∧
        (projectRow row).sdrName = some kv.2) := by
  refine ⟨?_, ?_, ?_⟩
  · intro r hr
    have hm := List.mem_of_mem_filter hr
    rcases List.mem_map.mp hm with ⟨raw, hraw, hproj⟩
    exact ⟨raw, hraw, hproj.symm⟩
  · exact foldl_projectStep_sl6 row emptyCanon
  · exact foldl_projectStep_sdr row emptyCanon

/-- C4 witness at the numeric row: the kept record is the projection of the
raw row and its stored fields are the raw cell values. -/
theorem projector_preserves_raw_values_witness :
    (∀ r ∈ processRows [numericRow], ∃ raw, raw ∈ [numericRow] ∧ r = projectRow raw) ∧
    ((projectRow numericRow).salesLevel6 = none ∨
      ∃ kv, kv ∈ numericRow ∧ normalizeHeader kv.1 = .territoryKey ∧
        (projectRow numericRow).salesLevel6 = some kv.2) ∧
    ((projectRow numericRow).sdrName = none ∨
      ∃ kv, kv ∈ numericRow ∧ normalizeHeader kv.1 = .ownerName ∧
        (projectRow numericRow).sdrName = some kv.2) :=
  projector_preserves_raw_values [numericRow] numericRow

/-- C5: for a canonical record set (both designated fields truthy in every
record) and a non-empty query, the result is empty iff no record's lowercased
key contains the lowercased query; the result size is at most the number of
matching records; the unmatched query "zzz" over the non-empty Scenario A set
yields the empty sequence (and no error, the function being total). -/
theorem query_empty_iff_no_match (term : String) (data : List CanonRow)
    (hterm : term ≠ "")
    (hcanon : ∀ r ∈ data, truthy r.salesLevel6 = true ∧ truthy r.sdrName = true) :
    (runQuery term data = [] ↔
      ∀ r ∈ data, jsIncludes (keyStr r) (jsToLower term) = false) ∧
    (runQuery term data).length ≤ (data.filter (rowMatches term)).length ∧
    runQuery "zzz" scenarioAData = [] ∧ scenarioAData ≠ [] := by
  have heq := runQuery_eq_dedup term data hterm
  refine ⟨?_, ?_, by decide, by decide⟩
  · rw [heq, dedupFirstBy_eq_nil_iff, List.filter_eq_nil_iff]
    constructor
    · intro h r hr
      rcases hcanon r hr with ⟨ht, -⟩
      have hnr := h r hr
      simp only [rowMatches, ht, Bool.true_and] at hnr
      cases hji : jsIncludes (keyStr r) (jsToLower term)
      · rfl
      · exact absurd hji hnr
    · intro h r hr
      rcases hcanon r hr with ⟨ht, -⟩
      simp only [rowMatches, ht, Bool.true_and, h r hr]
      simp
  · rw [heq]
    exact dedupFirstBy_length _

/-- C5 witness at the Scenario A record set and the query "zzz". -/
theorem query_empty_iff_no_match_witness :
    runQuery "zzz" scenarioAData = [] ↔
      ∀ r ∈ scenarioAData, jsIncludes (keyStr r) (jsToLower "zzz") = false :=
  (query_empty_iff_no_match "zzz" scenarioAData (by decide) (by decide)).1

/-- C6: when the external parser succeeds, the pipeline runs the Record
Projector and branches on the result: a non-empty projected set gives Loaded
with exactly that set and its count, an empty one gives NoValidRows with the
record set cleared; Scenario B's row (no header matching either substring)
projects to the empty set and yields NoValidRows. -/
theorem ingestion_outcome_branches (st : AppState) (rows : List RawRow) :
    (processRows rows ≠ [] →
      handleFileLoaded st (.ok rows)
        = ({ st with excelData := processRows rows, filteredResults := [] },
           .loaded (processRows rows) (processRows rows).length)) ∧
    (processRows rows = [] →
      handleFileLoaded st (.ok rows)
        = ({ st with excelData := [] }, .noValidRows)) ∧
    processRows [scenarioBRow] = [] ∧
    (handleFileLoaded st (.ok [scenarioBRow])).2 = .noValidRows := by
  have hB : processRows [scenarioBRow] = [] := by decide
  refine ⟨?_, ?_, hB, ?_⟩
  · intro h
    have hlen : 0 < (processRows rows).length := List.length_pos.mpr h
    simp [handleFileLoaded, hlen]
  · intro h
    simp [handleFileLoaded, h]
  · simp [handleFileLoaded, hB]

/-- C6 witness: Scenario A rows load successfully, Scenario B's row does not. -/
theorem ingestion_outcome_branches_witness :
    handleFileLoaded { excelData := [], searchTerm := "", filteredResults := [] }
        (.ok scenarioARows)
      = ({ excelData := processRows scenarioARows, searchTerm := "",
           filteredResults := [] },
         .loaded (processRows scenarioARows) (processRows scenarioARows).length) :=
  (ingestion_outcome_branches
    { excelData := [], searchTerm := "", filteredResults := [] }
    scenarioARows).1 (by decide)

/-- C7 counterexample: the canonical field name produced for a territory
header ("salesLevel6") re-normalizes to a passthrough tag, not to
territoryKey, because its cleaned form "saleslevel6" lacks the spaces of
"sales level 6". -/
theorem renormalize_field_name_counterexample :
    normalizeHeader (canonicalFieldName (normalizeHeader "Sales Level 6")) ≠
      normalizeHeader "Sales Level 6" := by decide

/-- C7 (amended): normalization is stable under its own string cleaning
(normalizing the cleaned form gives the same tag), an emitted passthrough key
re-normalizes to the same passthrough tag, and the ownerName field name
re-normalizes to ownerName; but the territoryKey field name "salesLevel6"
re-normalizes to the passthrough tag "saleslevel6". -/
theorem headerNormalizer_idempotence (k : String) :
    normalizeHeader (cleanKey k) = normalizeHeader k ∧
    (∀ ck, normalizeHeader k = .passthrough ck →
      normalizeHeader ck = .passthrough ck) ∧
    normalizeHeader (canonicalFieldName .ownerName) = .ownerName ∧
    normalizeHeader (canonicalFieldName .territoryKey)
      = .passthrough "saleslevel6" := by
  refine ⟨normalizeHeader_cleanKey k, ?_, by decide, by decide⟩
  intro ck hck
  by_cases h1 : jsIncludes (cleanKey k) "sales level 6" = true
  · simp [normalizeHeader, h1] at hck
  · by_cases h2 : jsIncludes (cleanKey k) "sdr" = true
    · simp [normalizeHeader, h1, h2] at hck
    · have hck' : ck = cleanKey k := by
        simp [normalizeHeader, h1, h2] at hck
        exact hck.symm
      subst hck'
      rw [normalizeHeader_cleanKey k]
      simp [normalizeHeader, h1, h2]

/-- C7 witness: the passthrough key of " Region " re-normalizes to itself. -/
theorem headerNormalizer_idempotence_witness :
    normalizeHeader "region" = .passthrough "region" :=
  (headerNormalizer_idempotence " Region ").2.1 "region" (by decide)

/-- C8: querying with the empty string yields the empty result sequence for
every record set, including the empty one. -/
theorem empty_query_yields_empty (data : List CanonRow) :
    runQuery "" data = [] := by
  unfold runQuery
  rw [if_neg]
  rintro ⟨h1, -⟩
  exact absurd h1 (by decide)

/-- C9: a failed ingestion — thrown parse error or zero valid projected rows
— clears the record set but leaves the previously computed query results
unchanged; only a successful ingestion clears the prior query results. -/
theorem failed_upload_keeps_results (st : AppState) (rows : List RawRow) :
    ((handleFileLoaded st .err).1.excelData = [] ∧
     (handleFileLoaded st .err).1.filteredResults = st.filteredResults) ∧
    (processRows rows = [] →
      (handleFileLoaded st (.ok rows)).1.excelData = [] ∧
      (handleFileLoaded st (.ok rows)).1.filteredResults = st.filteredResults) ∧
    (processRows rows ≠ [] →
      (handleFileLoaded st (.ok rows)).1.filteredResults = []) := by
  refine ⟨⟨rfl, rfl⟩, ?_, ?_⟩
  · intro h
    simp [handleFileLoaded, h]
  · intro h
    have hlen : 0 < (processRows rows).length := List.length_pos.mpr h
    simp [handleFileLoaded, hlen]

/-- C9 witness: a Scenario B upload (no valid rows) over a state holding
prior results keeps those results while clearing the record set. -/
theorem failed_upload_keeps_results_witness :
    (handleFileLoaded
        { excelData := scenarioAData, searchTerm := "w",
          filteredResults := [{ salesLevel6 := .str "West-1",
                                sdrName := some (.str "Alice") }] }
        (.ok [scenarioBRow])).1.excelData = [] ∧
    (handleFileLoaded
        { excelData := scenarioAData, searchTerm := "w",
          filteredResults := [{ salesLevel6 := .str "West-1",
                                sdrName := some (.str "Alice") }] }
        (.ok [scenarioBRow])).1.filteredResults
      = [{ salesLevel6 := .str "West-1", sdrName := some (.str "Alice") }] :=
  (failed_upload_keeps_results
    { excelData := scenarioAData, searchTerm := "w",
      filteredResults := [{ salesLevel6 := .str "West-1",
                            sdrName := some (.str "Alice") }] }
    [scenarioBRow]).2.1 (by decide)

/-- C10: within a single raw row, when several headers normalize to the same
canonical field, the value of the last such header in the row's key-iteration
order wins — for the territory field, the owner field, and any passthrough
key. -/
theorem within_row_last_wins (l1 l2 : List (String × CellValue)) (k : String)
    (v : CellValue) :
    (normalizeHeader k = .territoryKey →
      (∀ kv ∈ l2, normalizeHeader kv.1 ≠ .territoryKey) →
      (projectRow (l1 ++ (k, v) :: l2)).salesLevel6 = some v) ∧
    (normalizeHeader k = .ownerName →
      (∀ kv ∈ l2, normalizeHeader kv.1 ≠ .ownerName) →
      (projectRow (l1 ++ (k, v) :: l2)).sdrName = some v) ∧
    (∀ ck, normalizeHeader k = .passthrough ck →
      (∀ kv ∈ l2, normalizeHeader kv.1 ≠ .passthrough ck) →
      lookupField (projectRow (l1 ++ (k, v) :: l2)).passthrough ck = some v) := by
  have hsplit : projectRow (l1 ++ (k, v) :: l2)
      = l2.foldl projectStep (projectStep (l1.foldl projectStep emptyCanon) (k, v)) := by
    unfold projectRow
    rw [List.foldl_append, List.foldl_cons]
  refine ⟨?_, ?_, ?_⟩
  · intro htag h2
    rw [hsplit, foldl_projectStep_keep_sl6 _ _ h2]
    simp [projectStep, htag]
  · intro htag h2
    rw [hsplit, foldl_projectStep_keep_sdr _ _ h2]
    simp [projectStep, htag]
  · intro ck htag h2
    rw [hsplit, foldl_projectStep_keep_pass _ _ _ h2]
    simp only [projectStep, htag]
    exact lookupField_setField_self _ _ _

/-- C10 witness: of two owner-tagged headers in one row, the later one
("SDR", Bob) overwrites the earlier ("SDR Name", Alice). -/
theorem within_row_last_wins_witness :
    (projectRow ([("SDR Name", CellValue.str "Alice")]
        ++ ("SDR", CellValue.str "Bob") :: [])).sdrName
      = some (CellValue.str "Bob") :=
  (within_row_last_wins [("SDR Name", .str "Alice")] [] "SDR" (.str "Bob")).2.1
    (by decide) (by decide)
